import Mathlib

/-!
Shallow embedding of the `second-stack-vec` crate (src/core.rs, src/helpers.rs).

The backing region (`StackMemory<A>`, an `AVec<MaybeUninit<u8>, ConstAlign<A>>`)
is modelled as a list of bytes where a byte is `Option (Fin 256)`: `none` is an
uninitialized `MaybeUninit<u8>`, `some b` an initialized one.  Machine pointers
are modelled as byte offsets into that list; since the buffer's start address is
aligned to `A` and every carved element type `T` satisfies
`A % align_of::<T>() == 0` (const-asserted in `Stack::with_vec`), the address of
offset `i` is congruent to `i` modulo `align_of::<T>()`, so `align_offset` on
the end pointer becomes pure arithmetic on the logical length.

An element type `T` is modelled by its size, alignment, and a byte
encoding/decoding pair (`ptr.write` stores the encoding, `assume_init_drop` /
slice reads decode it).  Rust guarantees `align_of::<T>() ≥ 1` and
`align_of::<T>() ∣ size_of::<T>()` for every `T`; these are structure fields.
Destructor calls are made observable as a trace: `with_vec`'s teardown loop
emits the list of dropped values in loop order.
-/

namespace SecondStackVec

/-- One `MaybeUninit<u8>` cell: `none` is uninitialized, `some b` holds byte `b`. -/
abbrev Byte := Option (Fin 256)

/-- The backing region's logically-used bytes (`StackMemory.0`, an
`AVec<MaybeUninit<u8>>`): the list of cells below the current length.
Spare capacity is not observable and is not modelled. -/
abbrev Region := List Byte

/-- Models `AVec::resize(n, MaybeUninit::uninit())`: truncates to `n` cells if
`n` is below the current length, otherwise appends uninitialized cells up to
length `n`. -/
def Region.resize (r : Region) (n : Nat) : Region :=
  if n ≤ r.length then r.take n else r ++ List.replicate (n - r.length) none

/-- Models `Vec::truncate(m)`: keeps the first `m` cells (no-op when
`m` is at least the current length).  Runs no destructors: the cells are
`MaybeUninit<u8>`. -/
def Region.truncate (r : Region) (m : Nat) : Region := r.take m

/-- Overwrite the cells at offsets `[off, off + bs.length)` with `bs`
(models a raw `ptr.write` of an element at byte offset `off`). -/
def writeBytes (r : Region) (off : Nat) (bs : List Byte) : Region :=
  r.take off ++ bs ++ r.drop (off + bs.length)

/-- A Rust element type `T`, abstracted to what the embedding observes:
`size_of::<T>()`, `align_of::<T>()`, and the bijection between a value and its
`size`-byte object representation.  `align_pos` and `align_dvd_size` hold for
every Rust type; `enc_length` says the representation is exactly `size` bytes;
`dec_enc` says reading back a stored value yields the value. -/
structure ElemType (α : Type) where
  size : Nat
  align : Nat
  enc : α → List Byte
  dec : List Byte → α
  align_pos : 0 < align
  align_dvd_size : align ∣ size
  enc_length : ∀ v, (enc v).length = size
  dec_enc : ∀ v, dec (enc v) = v

/-- Models `end_ptr.align_offset(a)` for `end_ptr = buffer_start + len` where
`buffer_start` is aligned to `a` (guaranteed by `ConstAlign<A>` together with
the const assert `A % align_of::<T>() == 0`): the smallest `k` with
`(len + k) % a = 0`. -/
def alignOffset (len a : Nat) : Nat := (a - len % a) % a

/-- Models `StackVec::push` (src/core.rs): grow the region by
`size_of::<T>()` uninitialized bytes, then `ptr.write(val)` at the old
length.  `push` never reads `base`. -/
def push (et : ElemType α) (r : Region) (v : α) : Region :=
  let oldLen := r.length
  let r1 := Region.resize r (oldLen + et.size)
  writeBytes r1 oldLen (et.enc v)

/-- Calling `push` once per value of `vs`, in order, with nothing in between. -/
def pushAll (et : ElemType α) (r : Region) : List α → Region
  | [] => r
  | v :: vs => pushAll et (push et r v) vs

/-- Models `<StackVec as Extend>::extend` (src/helpers.rs):
`iter.into_iter().for_each(|e| self.push(e))`, with the iterable's produced
values given as the list `vs`. -/
def extend (et : ElemType α) (r : Region) (vs : List α) : Region :=
  vs.foldl (fun acc v => push et acc v) r

/-- Concatenated object representations of a list of values. -/
def encList (et : ElemType α) : List α → List Byte
  | [] => []
  | v :: vs => et.enc v ++ encList et vs

/-- Read `n` consecutive `T`s from the byte list `bs` (models viewing raw bytes
as a `[T]` of length `n` via `slice::from_raw_parts`). -/
def readElems (et : ElemType α) (bs : List Byte) : Nat → List α
  | 0 => []
  | n + 1 => et.dec (bs.take et.size) :: readElems et (bs.drop et.size) n

/-- Models `<StackVec as Deref>::deref` (src/core.rs): a view of
`(r.length - base) / size_of::<T>()` elements starting at byte offset `base`,
computed from the region's current length. -/
def deref (et : ElemType α) (base : Nat) (r : Region) : List α :=
  readElems et (r.drop base) ((r.length - base) / et.size)

/-- Models `<StackVec as DerefMut>::deref_mut` (src/core.rs); its body is the
same computation as `deref`'s. -/
def derefMut (et : ElemType α) (base : Nat) (r : Region) : List α :=
  readElems et (r.drop base) ((r.length - base) / et.size)

/-- Models the two `const { assert!(..) }` blocks at the top of
`Stack::with_vec`: `A % align_of::<T>() == 0` and `size_of::<T>() > 0`.
Rust evaluates these at compile time for each monomorphization, before any
execution of the carve. -/
def constAsserts (A : Nat) (et : ElemType α) : Bool :=
  decide (A % et.align = 0) && decide (0 < et.size)

/-- Models `Stack::with_vec` (src/core.rs) when the supplied closure returns
normally.  The closure `f` receives the base offset of the fresh `StackVec`
and the region state, and returns the region state it leaves behind together
with its result.  Returns `(closure result, region after teardown, drop
trace)`: the trace lists the values destructed by the teardown loop, in loop
order (the loop iterates the slice of appended elements forward, lowest
offset first), and is computed from the region state before the final
`truncate`. -/
def withVec (et : ElemType α) (f : Nat → Region → Region × U) (r : Region) :
    U × Region × List α :=
  let oldLen := r.length
  let newLen := oldLen + alignOffset oldLen et.align
  let r1 := Region.resize r newLen
  let fr := f newLen r1
  let addedLen := (fr.1.length - newLen) / et.size
  let dropped := readElems et (fr.1.drop newLen) addedLen
  (fr.2, Region.truncate fr.1 oldLen, dropped)

/-- Models `Stack::with_vec` when the supplied closure may exit abnormally
(panic/unwind), returning `Except.error e` in that case.  `with_vec` installs
no catch and none of its locals has drop glue, so unwinding skips the teardown
entirely: no element is destructed (empty drop trace) and no truncation runs —
the region is returned exactly as the closure left it. -/
def withVecPanic (et : ElemType α) (f : Nat → Region → Region × Except E U)
    (r : Region) : Region × List α × Except E U :=
  let oldLen := r.length
  let newLen := oldLen + alignOffset oldLen et.align
  let r1 := Region.resize r newLen
  let fr := f newLen r1
  match fr.2 with
  | Except.error e => (fr.1, [], Except.error e)
  | Except.ok u =>
    let addedLen := (fr.1.length - newLen) / et.size
    let dropped := readElems et (fr.1.drop newLen) addedLen
    (Region.truncate fr.1 oldLen, dropped, Except.ok u)

/-- A concrete element type for witnesses: a 1-byte, 1-aligned value
(like `u8`). -/
def byteElem : ElemType (Fin 256) where
  size := 1
  align := 1
  enc v := [some v]
  dec bs := (bs.headD none).getD 0
  align_pos := Nat.one_pos
  align_dvd_size := Nat.one_dvd 1
  enc_length := fun _ => rfl
  dec_enc := fun _ => rfl

/-- A concrete element type for witnesses: a 2-byte, 2-aligned value
(like `u16`), encoded little-endian-style as a pair of bytes. -/
def pairElem : ElemType (Fin 256 × Fin 256) where
  size := 2
  align := 2
  enc v := [some v.1, some v.2]
  dec bs := ((bs.headD none).getD 0, ((bs.drop 1).headD none).getD 0)
  align_pos := Nat.two_pos
  align_dvd_size := Nat.dvd_refl 2
  enc_length := fun _ => rfl
  dec_enc := fun _ => rfl

/-! ### Basic lemmas about the region operations -/

lemma resize_length (r : Region) (n : Nat) : (Region.resize r n).length = n := by
  unfold Region.resize
  split
  · simp; omega
  · simp; omega

lemma resize_grow (r : Region) (n : Nat) (h : r.length ≤ n) :
    Region.resize r n = r ++ List.replicate (n - r.length) none := by
  unfold Region.resize
  split
  · have : n = r.length := by omega
    simp [this]
  · rfl

lemma push_eq (et : ElemType α) (r : Region) (v : α) :
    push et r v = r ++ et.enc v := by
  show writeBytes (Region.resize r (r.length + et.size)) r.length (et.enc v)
      = r ++ et.enc v
  rw [resize_grow r _ (Nat.le_add_right _ _), Nat.add_sub_cancel_left, writeBytes]
  rw [List.take_left, List.drop_append, et.enc_length]
  simp

lemma encList_length (et : ElemType α) (vs : List α) :
    (encList et vs).length = vs.length * et.size := by
  induction vs with
  | nil => simp [encList]
  | cons v vs ih => simp [encList, ih, et.enc_length]; ring

lemma pushAll_eq (et : ElemType α) (vs : List α) :
    ∀ r : Region, pushAll et r vs = r ++ encList et vs := by
  induction vs with
  | nil => intro r; simp [pushAll, encList]
  | cons v vs ih =>
    intro r
    simp [pushAll, encList, ih, push_eq]

lemma pushAll_length (et : ElemType α) (r : Region) (vs : List α) :
    (pushAll et r vs).length = r.length + vs.length * et.size := by
  rw [pushAll_eq]; simp [encList_length]

lemma readElems_length (et : ElemType α) (bs : List Byte) (n : Nat) :
    (readElems et bs n).length = n := by
  induction n generalizing bs with
  | zero => rfl
  | succ n ih => simp [readElems, ih]

lemma readElems_append (et : ElemType α) (bs cs : List Byte) (m n : Nat)
    (h : bs.length = m * et.size) :
    readElems et (bs ++ cs) (m + n) = readElems et bs m ++ readElems et cs n := by
  induction m generalizing bs with
  | zero =>
    have : bs = [] := List.eq_nil_of_length_eq_zero (by simpa using h)
    simp [this, readElems]
  | succ m ih =>
    have hsz : et.size ≤ bs.length := by
      rw [h, Nat.succ_mul]; exact Nat.le_add_left _ _
    rw [Nat.succ_add]
    simp only [readElems]
    rw [List.take_append_of_le_length hsz, List.drop_append_of_le_length hsz]
    rw [ih (bs.drop et.size) (by simp [h, Nat.succ_mul])]
    simp [readElems]

lemma readElems_encList (et : ElemType α) (vs : List α) (tl : List Byte) :
    readElems et (encList et vs ++ tl) vs.length = vs := by
  induction vs generalizing tl with
  | nil => rfl
  | cons v vs ih =>
    simp only [encList, List.length_cons, readElems, List.append_assoc]
    have hle : et.size ≤ (et.enc v).length := by rw [et.enc_length]
    rw [List.take_append_of_le_length hle, List.drop_append_of_le_length hle]
    have htake : (et.enc v).take et.size = et.enc v := by
      rw [← et.enc_length v]; exact List.take_length _
    have hdrop : (et.enc v).drop et.size = [] := by
      rw [← et.enc_length v]; exact List.drop_length _
    rw [htake, hdrop, et.dec_enc, List.nil_append, ih]

/-! ### Alignment arithmetic -/

lemma alignOffset_lt (len a : Nat) (ha : 0 < a) : alignOffset len a < a :=
  Nat.mod_lt _ ha

lemma alignOffset_mod (len a : Nat) (ha : 0 < a) :
    (len + alignOffset len a) % a = 0 := by
  unfold alignOffset
  have hm : len % a < a := Nat.mod_lt _ ha
  have hdm : a * (len / a) + len % a = len := Nat.div_add_mod len a
  rcases Nat.eq_zero_or_pos (len % a) with h0 | hpos
  · rw [h0, Nat.sub_zero, Nat.mod_self, Nat.add_zero]
    exact h0
  · have h1 : (a - len % a) % a = a - len % a := Nat.mod_eq_of_lt (by omega)
    rw [h1]
    have h2 : len + (a - len % a) = a * (len / a + 1) := by
      rw [Nat.mul_add, Nat.mul_one]
      omega
    rw [h2, Nat.mul_mod_right]

lemma alignOffset_min (len a k : Nat) (ha : 0 < a) (hk : (len + k) % a = 0) :
    alignOffset len a ≤ k := by
  have h1 : (len + alignOffset len a) % a = 0 := alignOffset_mod len a ha
  have hlt : alignOffset len a < a := alignOffset_lt len a ha
  have hmodeq : len + k ≡ len + alignOffset len a [MOD a] := by
    unfold Nat.ModEq
    rw [hk, h1]
  have h2 : k ≡ alignOffset len a [MOD a] := Nat.ModEq.add_left_cancel' len hmodeq
  have h3 : k % a = alignOffset len a := by
    have h4 := h2
    unfold Nat.ModEq at h4
    rw [h4, Nat.mod_eq_of_lt hlt]
  calc alignOffset len a = k % a := h3.symm
    _ ≤ k := Nat.mod_le _ _

/-! ### Frame lemmas: pushes only grow the tail -/

lemma pushAll_take (et : ElemType α) (r : Region) (vs : List α) (base : Nat)
    (hb : base ≤ r.length) :
    (pushAll et r vs).take base = r.take base := by
  rw [pushAll_eq, List.take_append_of_le_length hb]

lemma pushAll_le_length (et : ElemType α) (r : Region) (vs : List α) :
    r.length ≤ (pushAll et r vs).length := by
  rw [pushAll_length]
  omega

lemma deref_fresh (et : ElemType α) (base : Nat) (r : Region) (vs : List α)
    (hb : r.length = base) (hs : 0 < et.size) :
    deref et base (pushAll et r vs) = vs := by
  rw [pushAll_eq]
  unfold deref
  rw [List.drop_left' hb]
  have hlen : (r ++ encList et vs).length - base = vs.length * et.size := by
    simp [encList_length, hb]
  rw [hlen, Nat.mul_div_cancel _ hs]
  have h := readElems_encList et vs []
  rwa [List.append_nil] at h

/-! ### Unfolding and restoration for the carve operation -/

lemma withVec_eq (et : ElemType α) (f : Nat → Region → Region × U) (r : Region)
    (nl : Nat) (hnl : nl = r.length + alignOffset r.length et.align) :
    withVec et f r =
      ((f nl (Region.resize r nl)).2,
       Region.truncate (f nl (Region.resize r nl)).1 r.length,
       readElems et ((f nl (Region.resize r nl)).1.drop nl)
         (((f nl (Region.resize r nl)).1.length - nl) / et.size)) := by
  subst hnl
  rfl

lemma withVec_restore (et : ElemType α) (f : Nat → Region → Region × U)
    (r : Region) (nl : Nat)
    (hnl : nl = r.length + alignOffset r.length et.align)
    (h2 : (f nl (Region.resize r nl)).1.take nl = Region.resize r nl) :
    (withVec et f r).2.1 = r := by
  rw [withVec_eq et f r nl hnl]
  show Region.truncate (f nl (Region.resize r nl)).1 r.length = r
  unfold Region.truncate
  have hr : r.length ≤ nl := by rw [hnl]; omega
  have e1 : (f nl (Region.resize r nl)).1.take r.length
      = ((f nl (Region.resize r nl)).1.take nl).take r.length := by
    rw [List.take_take, Nat.min_eq_left hr]
  rw [e1, h2, resize_grow r nl hr]
  exact List.take_left r _

lemma withVec_pushes_restore (et : ElemType β) (r : Region) (ws : List β) :
    (withVec et (fun _ reg => (pushAll et reg ws, ())) r).2.1 = r := by
  apply withVec_restore et _ r (r.length + alignOffset r.length et.align) rfl
  show (pushAll et (Region.resize r (r.length + alignOffset r.length et.align)) ws).take
        (r.length + alignOffset r.length et.align)
      = Region.resize r (r.length + alignOffset r.length et.align)
  rw [pushAll_take et _ ws _ (le_of_eq (resize_length _ _).symm)]
  exact List.take_of_length_le (le_of_eq (resize_length _ _))

/-! ### Claim theorems -/

/-- C1: for every carve operation (`Stack::with_vec`) whose supplied closure
returns normally, after `with_vec` returns the backing region's logical length
equals its length before the call, every byte at an offset below that old
length is bit-for-bit identical to its value before the call, and `with_vec`'s
return value is exactly the value the closure returned.  The hypothesis `hf`
is the `StackVec` invariant the borrow discipline enforces on the closure
(src/core.rs: "self.0.0[..old_len] couldn't have been changed by f because of
the StackVec invariant"): the closure leaves the first `new_len` bytes of the
region unchanged. -/
theorem withVec_frame_postcondition (et : ElemType α)
    (f : Nat → Region → Region × U) (r : Region) (nl : Nat)
    (hnl : nl = r.length + alignOffset r.length et.align)
    (hf : (f nl (Region.resize r nl)).1.take nl = Region.resize r nl) :
    (withVec et f r).2.1.length = r.length ∧
    (withVec et f r).2.1.take r.length = r.take r.length ∧
    (withVec et f r).1 = (f nl (Region.resize r nl)).2 := by
  have hrest := withVec_restore et f r nl hnl hf
  refine ⟨by rw [hrest], by rw [hrest], ?_⟩
  rw [withVec_eq et f r nl hnl]

theorem withVec_frame_postcondition_witness :
    ((1 : Nat) = ([some 1] : Region).length
        + alignOffset ([some 1] : Region).length byteElem.align) ∧
    (((fun _ reg => (push byteElem reg 7, (42 : Nat))) 1
        (Region.resize [some 1] 1)).1.take 1 = Region.resize [some 1] 1) ∧
    ((withVec byteElem (fun _ reg => (push byteElem reg 7, (42 : Nat)))
        [some 1]).2.1.length = ([some 1] : Region).length ∧
     (withVec byteElem (fun _ reg => (push byteElem reg 7, (42 : Nat)))
        [some 1]).2.1.take ([some 1] : Region).length
        = ([some 1] : Region).take ([some 1] : Region).length ∧
     (withVec byteElem (fun _ reg => (push byteElem reg 7, (42 : Nat)))
        [some 1]).1
        = ((fun _ reg => (push byteElem reg 7, (42 : Nat))) 1
            (Region.resize [some 1] 1)).2) :=
  ⟨by decide, by decide,
   withVec_frame_postcondition byteElem
     (fun _ reg => (push byteElem reg 7, (42 : Nat))) [some 1] 1
     (by decide) (by decide)⟩

/-- C2: for every freshly carved typed sequence and every finite list of
values `v1, …, vn`, after `push v1, …, push vn` with no intervening nested
carve, the sequence's read view (`Deref`) equals `[v1, …, vn]`.  The closure
pushes the values and returns its own `deref` view; `with_vec` hands that
view back unchanged. -/
theorem withVec_push_view (et : ElemType α) (r : Region) (vs : List α)
    (hs : 0 < et.size) :
    (withVec et
        (fun b reg => (pushAll et reg vs, deref et b (pushAll et reg vs)))
        r).1 = vs := by
  rw [withVec_eq et _ r (r.length + alignOffset r.length et.align) rfl]
  show deref et (r.length + alignOffset r.length et.align)
      (pushAll et
        (Region.resize r (r.length + alignOffset r.length et.align)) vs) = vs
  exact deref_fresh et _ _ vs (resize_length _ _) hs

theorem withVec_push_view_witness :
    0 < byteElem.size ∧
    (withVec byteElem
        (fun b reg => (pushAll byteElem reg [3, 5],
          deref byteElem b (pushAll byteElem reg [3, 5]))) []).1 = [3, 5] :=
  ⟨by decide, withVec_push_view byteElem [] [3, 5] (by decide)⟩

/-- C3: under the preconditions (`A % align_of::<T>() = 0`, `size_of::<T>() >
0`), the padding offset computed by `with_vec` is the smallest `offset ≥ 0`
such that `old_len + offset` is a multiple of `align_of::<T>()`, the region's
logical length is grown to `new_len = old_len + offset`, and the typed
sequence is constructed with `base = new_len`.  The probe closure records the
`base` it receives and the region length at entry; `with_vec` returns both. -/
theorem withVec_align_base (et : ElemType α) (A : Nat) (r : Region)
    (hA : A % et.align = 0) (hs : 0 < et.size) :
    (r.length + alignOffset r.length et.align) % et.align = 0 ∧
    (∀ k, (r.length + k) % et.align = 0 → alignOffset r.length et.align ≤ k) ∧
    (withVec et (fun b reg => (reg, (b, reg.length))) r).1
      = (r.length + alignOffset r.length et.align,
         r.length + alignOffset r.length et.align) := by
  refine ⟨alignOffset_mod _ _ et.align_pos,
          fun k hk => alignOffset_min _ _ k et.align_pos hk, ?_⟩
  rw [withVec_eq et _ r (r.length + alignOffset r.length et.align) rfl]
  show ((r.length + alignOffset r.length et.align : Nat),
      (Region.resize r (r.length + alignOffset r.length et.align)).length)
      = _
  rw [resize_length]

theorem withVec_align_base_witness :
    ((4 : Nat) % pairElem.align = 0) ∧ (0 < pairElem.size) ∧
    ((([some 1] : Region).length
        + alignOffset ([some 1] : Region).length pairElem.align)
        % pairElem.align = 0 ∧
     (∀ k, (([some 1] : Region).length + k) % pairElem.align = 0 →
        alignOffset ([some 1] : Region).length pairElem.align ≤ k) ∧
     (withVec pairElem (fun b reg => (reg, (b, reg.length))) [some 1]).1
       = (([some 1] : Region).length
            + alignOffset ([some 1] : Region).length pairElem.align,
          ([some 1] : Region).length
            + alignOffset ([some 1] : Region).length pairElem.align)) :=
  ⟨by decide, by decide,
   withVec_align_base pairElem 4 [some 1] (by decide) (by decide)⟩

/-- C4: given an outer typed sequence `S` whose view is `[a, c]`, performing a
nested carve (`StackVec::stack` hands out the same region, and `with_vec` on
it runs a closure appending arbitrary elements `ws` of an arbitrary element
type) and returning normally leaves `S`'s view exactly `[a, c]`, regardless of
what the nested carve pushed. -/
theorem withVec_nesting_isolation (et1 : ElemType α) (et2 : ElemType β)
    (b : Nat) (r : Region) (a c : α) (ws : List β)
    (hview : deref et1 b r = [a, c]) :
    deref et1 b
      ((withVec et2 (fun _ reg => (pushAll et2 reg ws, ())) r).2.1)
      = [a, c] := by
  rw [withVec_pushes_restore]
  exact hview

theorem withVec_nesting_isolation_witness :
    deref byteElem 0 [some 4, some 9] = [4, 9] ∧
    deref byteElem 0
      ((withVec byteElem (fun _ reg => (pushAll byteElem reg [1], ()))
          [some 4, some 9]).2.1) = [4, 9] :=
  ⟨by decide,
   withVec_nesting_isolation byteElem byteElem 0 [some 4, some 9] 4 9 [1]
     (by decide)⟩

/-- C5: when the supplied closure exits abnormally (modelled as `Except.error`
propagating through `with_vec`, which installs no catch and whose locals have
no drop glue), teardown is skipped: the drop trace is empty (no appended
element is destructed), no truncation occurs — the region is returned exactly
as the closure left it — and its length is the larger
`old_len + offset + n · size_of::<T>()`. -/
theorem withVecPanic_skips_teardown (et : ElemType α) (r : Region)
    (vs : List α) (e : E) :
    (withVecPanic et
        (fun _ reg => (pushAll et reg vs, (Except.error e : Except E Unit)))
        r)
      = (pushAll et
           (Region.resize r (r.length + alignOffset r.length et.align)) vs,
         [], Except.error e) ∧
    (withVecPanic et
        (fun _ reg => (pushAll et reg vs, (Except.error e : Except E Unit)))
        r).1.length
      = r.length + alignOffset r.length et.align + vs.length * et.size := by
  constructor
  · rfl
  · show (pushAll et
        (Region.resize r (r.length + alignOffset r.length et.align))
        vs).length = _
    rw [pushAll_length, resize_length]

/-- C6: `<StackVec as Extend>::extend` (src/helpers.rs) leaves the sequence in
exactly the same state as calling `push` on each produced value individually,
in order. -/
theorem extend_eq_pushAll (et : ElemType α) (r : Region) (vs : List α) :
    extend et r vs = pushAll et r vs := by
  induction vs generalizing r with
  | nil => rfl
  | cons v vs ih =>
    show extend et (push et r v) vs = pushAll et (push et r v) vs
    exact ih (push et r v)

/-- C7: the two `const { assert!(..) }` checks of `Stack::with_vec` are
evaluated at compile time, before any carve executes; under the precondition
`A % align_of::<T>() = 0 ∧ size_of::<T>() > 0` the assertion-failure branch is
unreachable (the check passes), so no runtime error path exists in the carve
itself. -/
theorem constAsserts_unreachable (et : ElemType α) (A : Nat)
    (hA : A % et.align = 0) (hs : 0 < et.size) :
    constAsserts A et = true := by
  simp [constAsserts, hA, hs]

theorem constAsserts_unreachable_witness :
    ((16 : Nat) % byteElem.align = 0) ∧ (0 < byteElem.size) ∧
    constAsserts 16 byteElem = true :=
  ⟨by decide, by decide,
   constAsserts_unreachable byteElem 16 (by decide) (by decide)⟩

/-- C8: for element types whose alignment divides `A`: after carving, the base
offset (equal to the new region length) is a multiple of `align_of::<T>()`;
`push` preserves "region length is a multiple of `align_of::<T>()`"; a nested
carve that returns normally restores the length and hence preserves that
multiple; and every element's storage offset `base + i · size_of::<T>()` is a
multiple of `align_of::<T>()`. -/
theorem alignment_invariant (et : ElemType α) (et2 : ElemType β) (A : Nat)
    (hA : A % et.align = 0) :
    (∀ r : Region,
        (r.length + alignOffset r.length et.align) % et.align = 0) ∧
    (∀ (r : Region) (v : α), r.length % et.align = 0 →
        (push et r v).length % et.align = 0) ∧
    (∀ (r : Region) (ws : List β), r.length % et.align = 0 →
        ((withVec et2 (fun _ reg => (pushAll et2 reg ws, ())) r).2.1).length
          % et.align = 0) ∧
    (∀ b i : Nat, b % et.align = 0 → (b + i * et.size) % et.align = 0) := by
  obtain ⟨c, hc⟩ := et.align_dvd_size
  refine ⟨fun r => alignOffset_mod _ _ et.align_pos, ?_, ?_, ?_⟩
  · intro r v h
    rw [push_eq]
    simp only [List.length_append, et.enc_length]
    rw [hc, Nat.add_mul_mod_self_left]
    exact h
  · intro r ws h
    rw [withVec_pushes_restore]
    exact h
  · intro b i hb
    rw [hc, Nat.mul_left_comm, Nat.add_mul_mod_self_left]
    exact hb

theorem alignment_invariant_witness :
    ((4 : Nat) % pairElem.align = 0) ∧
    ((∀ r : Region,
        (r.length + alignOffset r.length pairElem.align) % pairElem.align
          = 0) ∧
     (∀ (r : Region) (v : Fin 256 × Fin 256), r.length % pairElem.align = 0 →
        (push pairElem r v).length % pairElem.align = 0) ∧
     (∀ (r : Region) (ws : List (Fin 256)), r.length % pairElem.align = 0 →
        ((withVec byteElem (fun _ reg => (pushAll byteElem reg ws, ()))
            r).2.1).length % pairElem.align = 0) ∧
     (∀ b i : Nat, b % pairElem.align = 0 →
        (b + i * pairElem.size) % pairElem.align = 0)) :=
  ⟨by decide, alignment_invariant pairElem byteElem 4 (by decide)⟩

/-- C9: the read view is computed fresh from the region's current length at
each access: its element count is `(region.length - base) / size_of::<T>()`,
`deref_mut` produces the same view as `deref`, and a view taken after a
further `push` reflects the appended element. -/
theorem deref_view_fresh (et : ElemType α) (base : Nat) (r : Region) (v : α)
    (m : Nat) (hb : base ≤ r.length) (hm : r.length - base = m * et.size)
    (hs : 0 < et.size) :
    (deref et base r).length = (r.length - base) / et.size ∧
    derefMut et base r = deref et base r ∧
    deref et base (push et r v) = deref et base r ++ [v] := by
  refine ⟨readElems_length _ _ _, rfl, ?_⟩
  rw [push_eq]
  unfold deref
  rw [List.drop_append_of_le_length hb]
  have hlen1 : (r ++ et.enc v).length - base = (m + 1) * et.size := by
    simp only [List.length_append, et.enc_length, Nat.succ_mul]
    omega
  rw [hlen1, Nat.mul_div_cancel _ hs, hm, Nat.mul_div_cancel _ hs]
  rw [readElems_append et _ _ m 1 (by simp [hm])]
  congr 1
  show [et.dec ((et.enc v).take et.size)] = [v]
  rw [List.take_of_length_le (le_of_eq (et.enc_length v)), et.dec_enc]

theorem deref_view_fresh_witness :
    ((0 : Nat) ≤ ([some 2] : Region).length) ∧
    (([some 2] : Region).length - 0 = 1 * byteElem.size) ∧
    (0 < byteElem.size) ∧
    ((deref byteElem 0 [some 2]).length
        = (([some 2] : Region).length - 0) / byteElem.size ∧
     derefMut byteElem 0 [some 2] = deref byteElem 0 [some 2] ∧
     deref byteElem 0 (push byteElem [some 2] 5)
        = deref byteElem 0 [some 2] ++ [5]) :=
  ⟨by decide, by decide, by decide,
   deref_view_fresh byteElem 0 [some 2] 5 1 (by decide) (by decide)
     (by decide)⟩

/-- C10: when the closure returns normally after pushing `vs`, the teardown
loop destructs exactly the `(region.length - new_len) / size_of::<T>()`
appended elements, once each, in forward (allocation) order — the drop trace
equals `vs` — and the trace is computed from the region state before the
final truncation, which then restores the region to its pre-carve state. -/
theorem withVec_drop_trace (et : ElemType α) (r : Region) (vs : List α)
    (hs : 0 < et.size) :
    (withVec et (fun _ reg => (pushAll et reg vs, ())) r).2.2 = vs ∧
    (withVec et (fun _ reg => (pushAll et reg vs, ())) r).2.1 = r := by
  refine ⟨?_, withVec_pushes_restore et r vs⟩
  rw [withVec_eq et _ r (r.length + alignOffset r.length et.align) rfl]
  show deref et (r.length + alignOffset r.length et.align)
      (pushAll et
        (Region.resize r (r.length + alignOffset r.length et.align)) vs) = vs
  exact deref_fresh et _ _ vs (resize_length _ _) hs

theorem withVec_drop_trace_witness :
    0 < byteElem.size ∧
    ((withVec byteElem (fun _ reg => (pushAll byteElem reg [2, 4], ()))
        []).2.2 = [2, 4] ∧
     (withVec byteElem (fun _ reg => (pushAll byteElem reg [2, 4], ()))
        []).2.1 = []) :=
  ⟨by decide, withVec_drop_trace byteElem [] [2, 4] (by decide)⟩

end SecondStackVec
